import Mathlib

/-!
Verification development for the WAHA client generator (`generator/generate.py`).

The generator transforms an OpenAPI-style JSON document into an intermediate
representation (models, enums, entities, endpoints).  We embed the JSON data
model as the inductive `JValue` (Python dicts become ordered association
lists, mirroring insertion order of `dict`), and translate each parsing
function of `WAHAGenerator` plus the module-level naming utilities into Lean.

Modeling conventions, used throughout:
* Characters are treated as ASCII: Python's `\w`, `[A-Z]`, `.lower()` etc.
  agree with Lean's `Char.isAlphanum`, `Char.isUpper`, `Char.toLower` on the
  ASCII inputs exercised here.
* Python expressions that would raise (missing dict key on `d[k]`, indexing
  an empty list, calling a string method on a non-string) are modeled with
  `Option`, `none` standing for the raised exception, wherever a claim can
  observe the failure; in corners no claim observes (e.g. `allOf` bound to a
  non-array), the model returns a harmless default and says so in a comment.
* `JValue.null` models Python `None`; `d.get(k)` returning `None` both for a
  missing key and for an explicit JSON `null` is reproduced by `getD .null`.
-/

namespace Waha

/-- ASCII whitespace recognized by Python `str.strip()` / `\s`. -/
def isPySpace (c : Char) : Bool :=
  c = ' ' || c = '\t' || c = '\n' || c = '\r' || c = '\x0b' || c = '\x0c'

/-- Python regex word character `\w` (ASCII): letter, digit or underscore. -/
def isWordChar (c : Char) : Bool :=
  c.isAlphanum || c = '_'

/-- First regex pass of `snake_case`:
`re.sub("(.)([A-Z][a-z]+)", r"\1_\2", s)` — scan left to right; at each
position try to match one arbitrary non-newline character, an upper-case
letter, and a maximal non-empty run of lower-case letters; on a match insert
an underscore after the first character and resume after the match; on a
failed match advance one character. -/
def sub1F : Nat → List Char → List Char
  | 0, l => l
  | _ + 1, [] => []
  | _ + 1, [c] => [c]
  | fuel + 1, c :: u :: rest2 =>
    if c ≠ '\n' && u.isUpper && !(rest2.takeWhile Char.isLower).isEmpty then
      c :: '_' :: u :: (rest2.takeWhile Char.isLower ++
        sub1F fuel (rest2.dropWhile Char.isLower))
    else
      c :: sub1F fuel (u :: rest2)

/-- Fuel equal to the input length always suffices: every recursive call
consumes at least one character (see `sub1F_irrel`). -/
def sub1 (l : List Char) : List Char := sub1F l.length l

/-- Second regex pass of `snake_case`:
`re.sub("([a-z0-9])([A-Z])", r"\1_\2", s)` — insert an underscore between a
lower-case letter or digit and a following upper-case letter, consuming both
characters of each (non-overlapping) match. -/
def sub2 : List Char → List Char
  | [] => []
  | [c] => [c]
  | c :: u :: rest =>
    if (c.isLower || c.isDigit) && u.isUpper then
      c :: '_' :: u :: sub2 rest
    else
      c :: sub2 (u :: rest)

/-- Third regex pass of `snake_case`:
`re.sub(r"[^\w]+", "_", s)` — replace every maximal run of non-word
characters by a single underscore.  Implemented as a one-pass scan whose
flag records whether we are inside a non-word run (only the first character
of a run emits the underscore). -/
def sub3Go (inRun : Bool) : List Char → List Char
  | [] => []
  | c :: rest =>
    if isWordChar c then c :: sub3Go false rest
    else if inRun then sub3Go true rest
    else '_' :: sub3Go true rest

def sub3 (l : List Char) : List Char :=
  sub3Go false l

/-- Drop the given character from both ends of a list:
Python `str.strip(c)`. -/
def stripChar (c : Char) (l : List Char) : List Char :=
  ((l.dropWhile (· = c)).reverse.dropWhile (· = c)).reverse

/-- Drop Python whitespace from both ends of a list: Python `str.strip()`. -/
def stripSpaces (l : List Char) : List Char :=
  ((l.dropWhile isPySpace).reverse.dropWhile isPySpace).reverse

/-- `snake_case` from `generate.py`: the three regex substitutions followed
by `.lower().strip("_")`. -/
def snake_case (s : String) : String :=
  String.mk (stripChar '_' (List.map Char.toLower (sub3 (sub2 (sub1 s.data)))))

/-- `re.split(r"[_\-\s]+", s)`: split at maximal runs of underscores,
hyphens and whitespace; boundary separators contribute empty pieces, as in
Python `re.split`. -/
def isSepChar (c : Char) : Bool :=
  c = '_' || c = '-' || isPySpace c

/-- One-pass scanner for the split: `piece` accumulates the current chunk in
reverse; `inSep` records whether the previous character belonged to a
separator run (so a run contributes exactly one split point). -/
def splitSepsGo (piece : List Char) (inSep : Bool) : List Char → List (List Char)
  | [] => [piece.reverse]
  | c :: rest =>
    if isSepChar c then
      if inSep then splitSepsGo piece true rest
      else piece.reverse :: splitSepsGo [] true rest
    else splitSepsGo (c :: piece) false rest

def splitSeps (l : List Char) : List (List Char) :=
  splitSepsGo [] false l

/-- Python `str.capitalize()`: first character upper-cased, the rest
lower-cased. -/
def pyCapitalize : List Char → List Char
  | [] => []
  | c :: rest => c.toUpper :: rest.map Char.toLower

/-- `pascal_case` from `generate.py`:
`"".join(word.capitalize() for word in re.split(r"[_\-\s]+", string))`. -/
def pascal_case (s : String) : String :=
  String.mk (((splitSeps s.data).map pyCapitalize).flatten)

/-- The character filter of `sanitize_name`:
`re.sub(r"[^\w\s-]", "", name)` keeps word characters, whitespace and
hyphens and deletes everything else. -/
def sanitizeCleaned (s : String) : List Char :=
  s.data.filter (fun c => isWordChar c || isPySpace c || c = '-')

/-- The filtered and stripped intermediate of `sanitize_name`,
i.e. the value of `name` just before the emptiness test. -/
def sanitizeStripped (s : String) : List Char :=
  stripSpaces (sanitizeCleaned s)

/-- `sanitize_name` from `generate.py`: strip characters outside
word/space/hyphen, trim whitespace, substitute "default" when the result is
empty, then snake-case. -/
def sanitize_name (s : String) : String :=
  let stripped := sanitizeStripped s
  if stripped.isEmpty then snake_case "default"
  else snake_case (String.mk stripped)

/-! ## JSON data model

Python dicts are ordered association lists (`dict` preserves insertion
order); `JValue.null` models Python `None`. -/

inductive JValue where
  | null
  | bool (b : Bool)
  | num (n : Int)
  | str (s : String)
  | arr (items : List JValue)
  | obj (fields : List (String × JValue))
deriving Repr

/-- Lookup of a key in an object's field list (Python `d[k]` / `k in d`;
dict keys are unique, first match). -/
def lookupField (k : String) : List (String × JValue) → Option JValue
  | [] => none
  | (k', v) :: rest => if k' = k then some v else lookupField k rest

/-- `j.getKey k`: `some v` iff `j` is an object containing key `k` with
value `v`.  Python `k in j` is `(j.getKey k).isSome`. -/
def JValue.getKey : JValue → String → Option JValue
  | .obj fields, k => lookupField k fields
  | _, _ => none

mutual
/-- A computable size measure on JSON trees (the derived `SizeOf` instance
for the nested inductive generates no executable code). -/
def jsize : JValue → Nat
  | .null => 1
  | .bool _ => 1
  | .num _ => 1
  | .str _ => 1
  | .arr l => 1 + jsizeList l
  | .obj f => 1 + jsizeFields f

def jsizeList : List JValue → Nat
  | [] => 0
  | x :: xs => 1 + jsize x + jsizeList xs

def jsizeFields : List (String × JValue) → Nat
  | [] => 0
  | kv :: rest => 1 + jsize kv.2 + jsizeFields rest
end

/-- Python truthiness of a JSON value (`if not x`). -/
def jTruthy : JValue → Bool
  | .null => false
  | .bool b => b
  | .num n => n ≠ 0
  | .str s => s ≠ ""
  | .arr l => !l.isEmpty
  | .obj f => !f.isEmpty

/-- `v == "s"` in Python, for a JSON value against a string literal. -/
def isStr (v : JValue) (s : String) : Bool :=
  match v with
  | .str t => t = s
  | _ => false

/-- `d.get(k) == "s"` in Python. -/
def isStrVal (o : Option JValue) (s : String) : Bool :=
  match o with
  | some v => isStr v s
  | none => false

/-- The string under an optional value; a non-string here would raise in
the source (string method on a non-string), which no claim exercises. -/
def jstrD (o : Option JValue) : String :=
  match o with
  | some (.str s) => s
  | _ => ""

/-- The member list of `schema["allOf"]`.  A non-array value would make the
source iterate a non-list (an error for the documents considered); modeled
as the empty list. -/
def allOfList (schema : JValue) : List JValue :=
  match schema.getKey "allOf" with
  | some (.arr l) => l
  | _ => []

/-- `schema.get("oneOf") or schema.get("anyOf", [])`: the `or` falls
through on a falsy (empty) `oneOf` list.  Non-array values in these keys
are not exercised by any claim; modeled as falling through / empty. -/
def disjItems (schema : JValue) : List JValue :=
  match schema.getKey "oneOf" with
  | some (.arr (x :: xs)) => x :: xs
  | _ =>
    match schema.getKey "anyOf" with
    | some (.arr l) => l
    | _ => []

/-- Python `s.split("/")`: split at every occurrence of the separator. -/
def splitOnChar (sep : Char) : List Char → List (List Char)
  | [] => [[]]
  | c :: rest =>
    if c = sep then [] :: splitOnChar sep rest
    else
      match splitOnChar sep rest with
      | [] => [[c]]
      | piece :: more => (c :: piece) :: more

/-- `ref.split("/")[-1]`: the last path segment of a reference string. -/
def lastSegment (r : String) : String :=
  String.mk ((splitOnChar '/' r.data).getLastD [])

/-- Append the optionality marker: the trailing
`if not required: type_str = f"TYPE | None"` of `_get_type_hint`. -/
def withOpt (required : Bool) (s : String) : String :=
  if required then s else s ++ " | None"

/-- The body of `WAHAGenerator._get_type_hint(schema, required)`, with a
fuel parameter making the recursion structural (every recursive call is on
a strict subvalue, so `sizeOf schema` fuel always suffices; see
`getTypeHintF_irrel` and the fuel-free equations below).  The branch order
mirrors the source's `if/elif` chain exactly:
* a `$ref` node yields the reference's last path segment;
* a nonempty `allOf` returns the first member's hint directly (early
  `return`, passing the same `required` flag, so no second marker);
* `oneOf`/`anyOf` members are each resolved with `required=true` and joined
  with " | ";
* string/integer/number/boolean/array/object as in the source; missing
  `items` is `schema.get("items", ...)` with an empty-object default, which
  resolves to `Any`;
* anything else degrades to "Any";
* finally `withOpt` appends " | None" exactly when `required` is false. -/
def getTypeHintF : Nat → JValue → Bool → String
  | 0, _, _ => ""
  | fuel + 1, schema, required =>
    if (schema.getKey "$ref").isSome then
      withOpt required (lastSegment (jstrD (schema.getKey "$ref")))
    else if (schema.getKey "allOf").isSome then
      match allOfList schema with
      | item :: _ => getTypeHintF fuel item required
      | [] => withOpt required "Any"
    else if (schema.getKey "oneOf").isSome || (schema.getKey "anyOf").isSome then
      withOpt required (String.intercalate " | "
        ((disjItems schema).map (fun x => getTypeHintF fuel x true)))
    else
      match schema.getKey "type" with
      | none => withOpt required "Any"
      | some t =>
        if isStr t "string" then
          withOpt required
            (if (schema.getKey "enum").isSome then "str"
             else if isStrVal (schema.getKey "format") "date-time" then "datetime"
             else if isStrVal (schema.getKey "format") "date" then "date"
             else if isStrVal (schema.getKey "format") "binary" then "bytes"
             else "str")
        else if isStr t "integer" then withOpt required "int"
        else if isStr t "number" then withOpt required "float"
        else if isStr t "boolean" then withOpt required "bool"
        else if isStr t "array" then
          match schema.getKey "items" with
          | some it => withOpt required ("list[" ++ getTypeHintF fuel it true ++ "]")
          | none => withOpt required "list[Any]"
        else if isStr t "object" then
          match schema.getKey "additionalProperties" with
          | some ap =>
            withOpt required ("dict[str, " ++ getTypeHintF fuel ap true ++ "]")
          | none => withOpt required "dict[str, Any]"
        else withOpt required "Any"

/-- `WAHAGenerator._get_type_hint`. -/
def getTypeHint (schema : JValue) (required : Bool) : String :=
  getTypeHintF (jsize schema) schema required

/-! ## IR data model and the parsers -/

/-- Python `d.get(k)`: `None` both when the key is absent and when it maps
to JSON null. -/
def pyGet (j : JValue) (k : String) : Option JValue :=
  match j.getKey k with
  | some .null => none
  | o => o

structure PropertyInfo where
  name : String
  python_name : String
  type_hint : String
  required : Bool
  default : JValue
  description : JValue
  enum_values : Option JValue
  is_body : Bool
deriving Repr

/-- The reserved-word set of `_parse_property`. -/
def reservedWords : List String :=
  ["from", "import", "class", "def", "return", "type"]

/-- `WAHAGenerator._parse_property(name, schema, required)`. -/
def parse_property (name : String) (schema : JValue) (required : Bool) :
    PropertyInfo :=
  let pn := snake_case name
  let python_name := if pn ∈ reservedWords then pn ++ "_" else pn
  { name := name
    python_name := python_name
    type_hint := getTypeHint schema required
    required := required
    default := (schema.getKey "default").getD .null
    description := (schema.getKey "description").getD (.str "")
    enum_values := pyGet schema "enum"
    is_body := false }

structure ModelInfo where
  name : String
  python_name : String
  properties : List PropertyInfo
  description : JValue
deriving Repr

structure EnumInfo where
  name : String
  python_name : String
  values : List (String × JValue)
  description : JValue
deriving Repr

/-- The `properties` field list of a schema node, in declaration order
(`.items()` of a Python dict preserves insertion order).  A non-object
value would raise in the source; modeled as empty. -/
def propsOf (j : JValue) : List (String × JValue) :=
  match j.getKey "properties" with
  | some (.obj l) => l
  | _ => []

/-- `set(schema.get("required", []))`: the set is only ever used for
membership tests against property-name strings, so non-string members
(which can never equal a property name) are dropped. -/
def requiredNames (j : JValue) : List String :=
  match j.getKey "required" with
  | some (.arr l) =>
    l.filterMap (fun v => match v with | .str s => some s | _ => none)
  | _ => []

/-- The `allOf` merging loop of `_parse_schemas`: walk the composition
members in order; each member's properties are parsed against the required
set accumulated SO FAR, and only afterwards is the member's own `required`
list added to the set (the source updates `required_fields` after the inner
property loop). -/
def mergeAllOf : List JValue → List String → List PropertyInfo × List String
  | [], req => ([], req)
  | item :: rest, req =>
    let here :=
      if (item.getKey "properties").isSome then
        (propsOf item).map (fun p => parse_property p.1 p.2 (decide (p.1 ∈ req)))
      else []
    let tail := mergeAllOf rest (req ++ requiredNames item)
    (here ++ tail.1, tail.2)

/-- The property list of a model schema in `_parse_schemas`: merged `allOf`
member properties first, then the schema's own properties (the latter
parsed against the fully accumulated required set). -/
def parseModelProps (schema : JValue) : List PropertyInfo :=
  let start := requiredNames schema
  let merged :=
    if (schema.getKey "allOf").isSome then mergeAllOf (allOfList schema) start
    else ([], start)
  merged.1 ++
    (propsOf schema).map (fun p => parse_property p.1 p.2 (decide (p.1 ∈ merged.2)))

/-- `schema["enum"]` as a list of member values. -/
def enumList (j : JValue) : List JValue :=
  match j.getKey "enum" with
  | some (.arr l) => l
  | _ => []

/-- Python `str(v)` for the scalar JSON values that occur as enum members;
composite members are not exercised by any claim. -/
def jToPyStr : JValue → String
  | .null => "None"
  | .bool true => "True"
  | .bool false => "False"
  | .num n => toString n
  | .str s => s
  | .arr _ => ""
  | .obj _ => ""

/-- `self.spec.get("components", ...).get("schemas", ...)` with empty-dict
defaults, as an ordered name/schema list. -/
def schemasOf (spec : JValue) : List (String × JValue) :=
  match spec.getKey "components" with
  | some comps =>
    match comps.getKey "schemas" with
    | some (.obj l) => l
    | _ => []
  | none => []

/-- One iteration of the `_parse_schemas` loop: an `enum` schema yields an
EnumInfo (`inr`), an object-shaped schema (type "object", or `properties`,
or `allOf` present) a ModelInfo (`inl`), anything else is skipped. -/
def parseSchemaEntry (name : String) (schema : JValue) :
    Option (ModelInfo ⊕ EnumInfo) :=
  if (schema.getKey "enum").isSome then
    some (.inr
      { name := name, python_name := name
        values := (enumList schema).map
          (fun v => (String.map Char.toUpper (snake_case (jToPyStr v)), v))
        description := (schema.getKey "description").getD (.str "") })
  else if isStrVal (schema.getKey "type") "object"
      || (schema.getKey "properties").isSome
      || (schema.getKey "allOf").isSome then
    some (.inl
      { name := name, python_name := name
        properties := parseModelProps schema
        description := (schema.getKey "description").getD (.str "") })
  else none

/-- `WAHAGenerator._parse_schemas`: the accumulated `self.models` and
`self.enums` lists. -/
def parse_schemas (spec : JValue) : List ModelInfo × List EnumInfo :=
  ((schemasOf spec).filterMap (fun p =>
      match parseSchemaEntry p.1 p.2 with | some (.inl m) => some m | _ => none),
   (schemasOf spec).filterMap (fun p =>
      match parseSchemaEntry p.1 p.2 with | some (.inr e) => some e | _ => none))

structure EndpointInfo where
  name : String
  python_name : String
  method : String
  path : String
  summary : JValue
  description : JValue
  tag : String
  parameters : List PropertyInfo
  body : Option PropertyInfo
  response_type : String
deriving Repr

/-- The reference-resolution walk of `_parse_endpoint`:
`param = self.spec; for part in ref_path[1:]: param = param[part]`.
A missing key raises KeyError, modeled as `none`. -/
def walkPath : JValue → List String → Option JValue
  | j, [] => some j
  | j, p :: rest =>
    match j.getKey p with
    | some v => walkPath v rest
    | none => none

/-- Resolve a possibly-referenced parameter object: follow `$ref` (split on
"/", skipping the leading "#"), otherwise keep the object.  A non-string
`$ref` value would raise (`.split` on a non-string), modeled as `none`. -/
def resolveParam (spec : JValue) (param : JValue) : Option JValue :=
  match param.getKey "$ref" with
  | some (.str r) => walkPath spec (((splitOnChar '/' r.data).map String.mk).drop 1)
  | some _ => none
  | none => some param

/-- One iteration of the parameter loop in `_parse_endpoint`.  `none`
models a raised exception (unresolvable `$ref`, missing or non-string
`name`).  A non-boolean declared `required` value is stored verbatim by the
source and used only through truthiness; modeled by its truthiness. -/
def parse_param (spec : JValue) (param0 : JValue) : Option PropertyInfo := do
  let param ← resolveParam spec param0
  let schema := (param.getKey "schema").getD (JValue.obj [("type", .str "string")])
  let nm ← match param.getKey "name" with
           | some (.str s) => some s
           | _ => none
  let required :=
    if isStrVal (param.getKey "in") "path" then true
    else jTruthy ((param.getKey "required").getD (.bool false))
  some { name := nm
         python_name := snake_case nm
         type_hint := getTypeHint schema required
         required := required
         default := (schema.getKey "default").getD .null
         description := (param.getKey "description").getD (.str "")
         enum_values := pyGet schema "enum"
         is_body := false }

/-- `operation.get("parameters", [])`. -/
def paramsOf (operation : JValue) : List JValue :=
  match operation.getKey "parameters" with
  | some (.arr l) => l
  | _ => []

/-- The request-body step of `_parse_endpoint`: only a JSON content type
produces a body PropertyInfo (`none` here means "no body", not an error). -/
def parse_body (operation : JValue) : Option PropertyInfo :=
  match operation.getKey "requestBody" with
  | none => none
  | some reqBody =>
    let content := (reqBody.getKey "content").getD (.obj [])
    match content.getKey "application/json" with
    | none => none
    | some cj =>
      let schema := (cj.getKey "schema").getD (.obj [])
      some { name := "body", python_name := "body"
             type_hint := getTypeHint schema true
             required := jTruthy ((reqBody.getKey "required").getD (.bool true))
             default := .null
             description := (reqBody.getKey "description").getD (.str "")
             enum_values := none
             is_body := true }

/-- The status keys scanned for the response type, in source order. -/
def statusPriority : List String := ["200", "201", "default"]

/-- The scanning loop for the response type: first status key present in
`responses` whose content has an "application/json" entry wins (a present
status without JSON content does NOT break the loop); its schema (empty
default) is resolved with `required=true`. -/
def respTypeGo (responses : JValue) : List String → String
  | [] => "Any"
  | status :: rest =>
    match responses.getKey status with
    | none => respTypeGo responses rest
    | some resp =>
      let content := (resp.getKey "content").getD (.obj [])
      match content.getKey "application/json" with
      | none => respTypeGo responses rest
      | some cj => getTypeHint ((cj.getKey "schema").getD (.obj [])) true

/-- The response-type derivation of `_parse_endpoint`. -/
def parse_response_type (operation : JValue) : String :=
  respTypeGo ((operation.getKey "responses").getD (.obj [])) statusPriority

/-- `WAHAGenerator._parse_endpoint`; `none` models a raised exception while
reading `operationId` or parsing the parameters. -/
def parse_endpoint (spec : JValue) (path : String) (method : String)
    (operation : JValue) (tag : String) : Option EndpointInfo := do
  let oid ← match operation.getKey "operationId" with
            | some (.str s) => some s
            | none => some (method ++ "_" ++ path)
            | some _ => none
  let params ← (paramsOf operation).mapM (parse_param spec)
  some { name := oid
         python_name := snake_case oid
         method := String.map Char.toUpper method
         path := path
         summary := (operation.getKey "summary").getD (.str "")
         description := (operation.getKey "description").getD (.str "")
         tag := tag
         parameters := params
         body := parse_body operation
         response_type := parse_response_type operation }

/-- `tags = operation.get("tags", ["default"]); tag = sanitize_name(tags[0])`.
`none` models the raised exceptions: indexing an empty tag list, a
non-list `tags` value, or a non-string first tag. -/
def tagOf (operation : JValue) : Option String := do
  let tags ← match operation.getKey "tags" with
             | none => some [JValue.str "default"]
             | some (.arr l) => some l
             | some _ => none
  let t0 ← tags.head?
  match t0 with
  | .str s => some (sanitize_name s)
  | _ => none

/-- `self.spec.get("paths", ...)` as an ordered path/path-item list. -/
def pathsOf (spec : JValue) : List (String × JValue) :=
  match spec.getKey "paths" with
  | some (.obj l) => l
  | _ => []

/-- The HTTP verbs `_parse_endpoints` iterates, in source order. -/
def httpMethods : List String := ["get", "post", "put", "patch", "delete"]

/-- `self.endpoints[tag].append(endpoint)` on the tag-keyed dict:
append into the tag's bucket, creating it at the end on first use
(dict insertion order). -/
def insertEndpoint (groups : List (String × List EndpointInfo)) (tag : String)
    (e : EndpointInfo) : List (String × List EndpointInfo) :=
  match groups with
  | [] => [(tag, [e])]
  | (t, es) :: rest =>
    if t = tag then (t, es ++ [e]) :: rest
    else (t, es) :: insertEndpoint rest tag e

/-- One path × method step of `_parse_endpoints`: skip an absent method,
otherwise derive the tag and parse the operation. -/
def stepEndpoint (spec : JValue) (path : String) (path_item : JValue)
    (groups : List (String × List EndpointInfo)) (method : String) :
    Option (List (String × List EndpointInfo)) :=
  match path_item.getKey method with
  | none => some groups
  | some operation => do
    let tag ← tagOf operation
    let e ← parse_endpoint spec path method operation tag
    some (insertEndpoint groups tag e)

/-- `WAHAGenerator._parse_endpoints`: the tag → endpoints mapping; `none`
models a raised exception on some operation. -/
def parse_endpoints (spec : JValue) :
    Option (List (String × List EndpointInfo)) :=
  (pathsOf spec).foldlM (fun groups p =>
    httpMethods.foldlM (stepEndpoint spec p.1 p.2) groups) []

structure EntityInfo where
  name : String
  schema_name : String
  properties : List PropertyInfo
  description : JValue
deriving Repr

/-- One iteration of `_parse_entities`: a schema whose `x-waha-entity`
value is truthy yields an EntityInfo.  Class name: the extension's
`class_name` if present (a non-string override is stored verbatim by the
source; unexercised here, modeled as ""), else the Pascal-cased schema
name.  Only the schema's DIRECT `properties` are read (no `allOf` merge),
against the schema's own `required` list, via `_parse_property`. -/
def parse_entity (schema_name : String) (schema : JValue) : Option EntityInfo :=
  let cfg := (schema.getKey "x-waha-entity").getD .null
  if jTruthy cfg then
    let class_name :=
      match cfg.getKey "class_name" with
      | some (.str s) => s
      | some _ => ""
      | none => pascal_case schema_name
    let req := requiredNames schema
    some { name := class_name
           schema_name := schema_name
           properties := (propsOf schema).map
             (fun p => parse_property p.1 p.2 (decide (p.1 ∈ req)))
           description := (schema.getKey "description").getD (.str "") }
  else none

/-- `WAHAGenerator._parse_entities`: the accumulated `self.entities`. -/
def parse_entities (spec : JValue) : List EntityInfo :=
  (schemasOf spec).filterMap (fun p => parse_entity p.1 p.2)

/-! ## Statement vocabulary for the claims -/

/-- The union of a schema's own `required` list with every `allOf` member's
`required` list (the claimed required set). -/
def unionRequired (schema : JValue) : List String :=
  requiredNames schema ++ ((allOfList schema).map requiredNames).flatten

/-- The evolving required sets along the `allOf` members: entry `i` is the
union of the starting set with the `required` lists of the members strictly
before `i`. -/
def reqPrefixes (start : List String) (items : List JValue) : List (List String) :=
  items.scanl (fun acc it => acc ++ requiredNames it) start

/-- All endpoints of the tag-grouped structure, buckets flattened. -/
def allEndpoints (groups : List (String × List EndpointInfo)) :
    List EndpointInfo :=
  (groups.map Prod.snd).flatten

/-- The JSON response schema at one status key, if the status is declared
with an "application/json" content entry (the candidate scanned by the
response-type loop). -/
def jsonSchemaAt (responses : JValue) (status : String) : Option JValue :=
  match responses.getKey status with
  | some resp =>
    match ((resp.getKey "content").getD (.obj [])).getKey "application/json" with
    | some cj => some ((cj.getKey "schema").getD (.obj []))
    | none => none
  | none => none

/-! ### Concrete documents used by counterexamples and witnesses -/

/-- A plain string schema node. -/
def strSchema : JValue := .obj [("type", .str "string")]

/-- A schema whose single `allOf` member declares property "a" and lists it
as required in the member's own `required` list; the schema itself has no
`required` list. -/
def c1schema : JValue :=
  .obj [("allOf", .arr
    [.obj [("properties", .obj [("a", strSchema)]),
           ("required", .arr [.str "a"])]])]

/-- A reference node. -/
def c7ref : JValue := .obj [("$ref", .str "#/components/schemas/Foo")]

/-- An integer schema node. -/
def intSchema : JValue := .obj [("type", .str "integer")]

/-- A node carrying BOTH `$ref` and `allOf`. -/
def c6node : JValue :=
  .obj [("$ref", .str "#/components/schemas/Foo"),
        ("allOf", .arr [intSchema])]

/-- A node whose only composition content is a one-member `allOf`. -/
def c6wNode : JValue := .obj [("allOf", .arr [intSchema])]

/-- An array-of-references node. -/
def c7arr : JValue := .obj [("type", .str "array"), ("items", c7ref)]

/-- A two-member `oneOf` node. -/
def c7disj : JValue := .obj [("oneOf", .arr [strSchema, intSchema])]

/-- A path-located parameter declared with `required: false`. -/
def c3param : JValue :=
  .obj [("name", .str "session"), ("in", .str "path"),
        ("required", .bool false)]

/-- A fallback default used when projecting out of an `Option PropertyInfo`
whose presence is separately proved. -/
def noProp : PropertyInfo :=
  { name := "", python_name := "", type_hint := "", required := false,
    default := .null, description := .null, enum_values := none,
    is_body := false }

/-- The parameter parsed from `c3param` (total projection; the witness
proves the parse succeeds). -/
def c3pi : PropertyInfo := (parse_param (JValue.obj []) c3param).getD noProp

/-- A complete inline parameter object. -/
def c8inline : JValue :=
  .obj [("name", .str "session"), ("in", .str "query"),
        ("required", .bool true), ("schema", strSchema)]

/-- A document whose `components.parameters.SessionParam` is `c8inline`. -/
def c8spec : JValue :=
  .obj [("components", .obj
    [("parameters", .obj [("SessionParam", c8inline)])])]

/-- A parameter given as a reference to `c8inline`. -/
def c8refParam : JValue :=
  .obj [("$ref", .str "#/components/parameters/SessionParam")]

/-- An entity-marked schema with a `class_name` override, direct
properties, a `required` list, and an `allOf` member (whose properties an
entity must NOT pick up). -/
def c9schema : JValue :=
  .obj [("x-waha-entity", .obj [("class_name", .str "Group")]),
        ("properties", .obj [("id", strSchema), ("name", strSchema)]),
        ("required", .arr [.str "id"]),
        ("allOf", .arr [.obj [("properties", .obj [("extra", strSchema)])]])]

/-- A fallback default for `Option EntityInfo` projections. -/
def noEntity : EntityInfo :=
  { name := "", schema_name := "", properties := [], description := .null }

/-- The entity parsed from `c9schema` (the witness proves the parse
succeeds). -/
def c9ent : EntityInfo := (parse_entity "GroupInfo" c9schema).getD noEntity

/-- A schema whose entity extension key is present but maps to an empty
(falsy) object. -/
def c10schema : JValue :=
  .obj [("x-waha-entity", .obj []), ("properties", .obj [("id", strSchema)])]

/-- A path item whose only operation is under the HTTP verb "head". -/
def c4item : JValue := .obj [("head", .obj [("responses", .obj [])])]

/-- A document with a single path carrying only a "head" operation. -/
def c4spec : JValue := .obj [("paths", .obj [("/x", c4item)])]

/-- An operation with a declared tag list. -/
def c4wOp : JValue :=
  .obj [("tags", .arr [.str "My Tag"]), ("responses", .obj [])]

/-- A path item declaring `c4wOp` under "get". -/
def c4wItem : JValue := .obj [("get", c4wOp)]

/-- A document containing `c4wItem` at path "/a". -/
def c4wSpec : JValue := .obj [("paths", .obj [("/a", c4wItem)])]

/-- The endpoint groups parsed from `c4wSpec` (total projection; the
witness proves the parse succeeds). -/
def c4wGroups : List (String × List EndpointInfo) :=
  (parse_endpoints c4wSpec).getD []

/-- An operation declaring both a "200" and a "201" JSON response (the
"201" listed first), with distinct reference schemas. -/
def c2op : JValue :=
  .obj [("responses", .obj
    [("201", .obj [("content", .obj [("application/json", .obj
        [("schema", .obj [("$ref", .str "#/components/schemas/B")])])])]),
     ("200", .obj [("content", .obj [("application/json", .obj
        [("schema", .obj [("$ref", .str "#/components/schemas/A")])])])])])]

/-! ## Theorems -/

theorem length_dropWhile_le (p : Char → Bool) (l : List Char) :
    (l.dropWhile p).length ≤ l.length := by
  induction l with
  | nil => simp [List.dropWhile]
  | cons c rest ih =>
    by_cases h : p c
    · simp [List.dropWhile, h]; omega
    · simp [List.dropWhile, h]

theorem sub1F_irrel (n : Nat) : ∀ (m : Nat) (l : List Char),
    l.length ≤ n → l.length ≤ m → sub1F n l = sub1F m l := by
  induction n using Nat.strong_induction_on with
  | _ n ih =>
    intro m l hn hm
    cases l with
    | nil => cases n <;> cases m <;> rfl
    | cons c rest =>
      cases n with
      | zero => simp at hn
      | succ n' =>
        cases m with
        | zero => simp at hm
        | succ m' =>
          cases rest with
          | nil => rfl
          | cons u rest2 =>
            simp only [List.length_cons] at hn hm
            by_cases h : (c ≠ '\n' && u.isUpper
                && !(rest2.takeWhile Char.isLower).isEmpty) = true
            · simp only [sub1F, h, if_true]
              have hd := length_dropWhile_le Char.isLower rest2
              rw [ih n' (by omega) m' (rest2.dropWhile Char.isLower)
                (by omega) (by omega)]
            · simp only [sub1F, h, Bool.false_eq_true, if_false]
              rw [ih n' (by omega) m' (u :: rest2) (by simp; omega)
                (by simp; omega)]

theorem jsize_pos (j : JValue) : 0 < jsize j := by
  cases j <;> simp [jsize]

theorem mem_jsizeList_lt : ∀ (l : List JValue) (x : JValue), x ∈ l →
    jsize x < 1 + jsizeList l
  | y :: ys, x, h => by
    rcases List.mem_cons.mp h with h | h
    · subst h; simp [jsizeList]; omega
    · have := mem_jsizeList_lt ys x h
      simp [jsizeList]
      omega

theorem lookupField_jsize_lt :
    ∀ (fields : List (String × JValue)) (k : String) (v : JValue),
      lookupField k fields = some v → jsize v < jsizeFields fields
  | [], k, v, h => by simp [lookupField] at h
  | (k', v') :: rest, k, v, h => by
    by_cases hk : k' = k
    · simp [lookupField, hk] at h
      subst h
      simp [jsizeFields]
      omega
    · simp [lookupField, hk] at h
      have := lookupField_jsize_lt rest k v h
      simp [jsizeFields]
      omega

theorem getKey_jsize_lt (j : JValue) (k : String) (v : JValue)
    (h : j.getKey k = some v) : jsize v < jsize j := by
  cases j <;> simp [JValue.getKey] at h
  case obj fields =>
    have := lookupField_jsize_lt fields k v h
    simp [jsize]
    omega

theorem allOfList_jsize_lt (schema x : JValue) (h : x ∈ allOfList schema) :
    jsize x < jsize schema := by
  unfold allOfList at h
  split at h
  case h_1 l heq =>
    have h1 := mem_jsizeList_lt l x h
    have h2 := getKey_jsize_lt schema "allOf" _ heq
    simp [jsize] at h2
    omega
  case h_2 => simp at h

theorem disjItems_jsize_lt (schema x : JValue) (h : x ∈ disjItems schema) :
    jsize x < jsize schema := by
  unfold disjItems at h
  split at h
  case h_1 y ys heq =>
    have h1 := mem_jsizeList_lt (y :: ys) x h
    have h2 := getKey_jsize_lt schema "oneOf" _ heq
    simp [jsize] at h2
    omega
  case h_2 =>
    split at h
    case h_1 l heq =>
      have h1 := mem_jsizeList_lt l x h
      have h2 := getKey_jsize_lt schema "anyOf" _ heq
      simp [jsize] at h2
      omega
    case h_2 => simp at h

/-- The fuel is irrelevant as long as it dominates the schema's size: the
recursion only ever descends into strict subvalues. -/
theorem getTypeHintF_irrel (n : Nat) : ∀ (m : Nat) (schema : JValue)
    (required : Bool), jsize schema ≤ n → jsize schema ≤ m →
    getTypeHintF n schema required = getTypeHintF m schema required := by
  induction n using Nat.strong_induction_on with
  | _ n ih =>
    intro m schema required hn hm
    have hpos := jsize_pos schema
    cases n with
    | zero => omega
    | succ n' =>
      cases m with
      | zero => omega
      | succ m' =>
        simp only [getTypeHintF]
        by_cases h1 : (schema.getKey "$ref").isSome
        · simp [h1]
        · simp only [h1, Bool.false_eq_true, if_false]
          by_cases h2 : (schema.getKey "allOf").isSome
          · simp only [h2, if_true]
            cases hAll : allOfList schema with
            | nil => rfl
            | cons item rest =>
              have hlt := allOfList_jsize_lt schema item
                (by rw [hAll]; exact List.mem_cons_self _ _)
              exact ih n' (by omega) m' item required (by omega) (by omega)
          · simp only [h2, Bool.false_eq_true, if_false]
            by_cases h3 : (schema.getKey "oneOf").isSome
                || (schema.getKey "anyOf").isSome
            · simp only [h3, if_true]
              have : ∀ x ∈ disjItems schema,
                  getTypeHintF n' x true = getTypeHintF m' x true := by
                intro x hx
                have hlt := disjItems_jsize_lt schema x hx
                exact ih n' (by omega) m' x true (by omega) (by omega)
              rw [List.map_congr_left this]
            · simp only [h3, Bool.false_eq_true, if_false]
              cases hTy : schema.getKey "type" with
              | none => rfl
              | some t =>
                simp only []
                by_cases hs : isStr t "string" = true
                · simp [hs]
                · simp only [hs, Bool.false_eq_true, if_false]
                  by_cases hi : isStr t "integer" = true
                  · simp [hi]
                  · simp only [hi, Bool.false_eq_true, if_false]
                    by_cases hnum : isStr t "number" = true
                    · simp [hnum]
                    · simp only [hnum, Bool.false_eq_true, if_false]
                      by_cases hb : isStr t "boolean" = true
                      · simp [hb]
                      · simp only [hb, Bool.false_eq_true, if_false]
                        by_cases ha : isStr t "array" = true
                        · simp only [ha, if_true]
                          cases hIt : schema.getKey "items" with
                          | none => rfl
                          | some it =>
                            have hlt := getKey_jsize_lt schema "items" it hIt
                            have := ih n' (by omega) m' it true
                              (by omega) (by omega)
                            simp [this]
                        · simp only [ha, Bool.false_eq_true, if_false]
                          by_cases ho : isStr t "object" = true
                          · simp only [ho, if_true]
                            cases hAp : schema.getKey "additionalProperties" with
                            | none => rfl
                            | some ap =>
                              have hlt := getKey_jsize_lt schema
                                "additionalProperties" ap hAp
                              have := ih n' (by omega) m' ap true
                                (by omega) (by omega)
                              simp [this]
                          · simp [ho]

/-! ## Unfolding equations for the Type Resolver -/

theorem allOfList_isSome (schema item : JValue) (rest : List JValue)
    (h : allOfList schema = item :: rest) :
    (schema.getKey "allOf").isSome = true := by
  unfold allOfList at h
  split at h
  case h_1 l heq => simp [heq]
  case h_2 => simp at h

theorem getTypeHint_ref (schema : JValue) (required : Bool)
    (h : (schema.getKey "$ref").isSome = true) :
    getTypeHint schema required =
      withOpt required (lastSegment (jstrD (schema.getKey "$ref"))) := by
  have hpos := jsize_pos schema
  unfold getTypeHint
  cases hj : jsize schema with
  | zero => omega
  | succ n => simp [getTypeHintF, h]

theorem getTypeHint_allOf_head (schema item : JValue) (rest : List JValue)
    (required : Bool)
    (href : schema.getKey "$ref" = none)
    (hAll : allOfList schema = item :: rest) :
    getTypeHint schema required = getTypeHint item required := by
  have hpos := jsize_pos schema
  have hsome := allOfList_isSome schema item rest hAll
  have hlt : jsize item < jsize schema :=
    allOfList_jsize_lt schema item (by rw [hAll]; exact List.mem_cons_self _ _)
  unfold getTypeHint
  cases hj : jsize schema with
  | zero => omega
  | succ n =>
    simp only [getTypeHintF, href, Option.isSome_none, Bool.false_eq_true,
      if_false, hsome, if_true, hAll]
    exact getTypeHintF_irrel n (jsize item) item required (by omega) le_rfl

theorem getTypeHintF_opt (n : Nat) : ∀ (schema : JValue), jsize schema ≤ n →
    getTypeHintF n schema false = getTypeHintF n schema true ++ " | None" := by
  induction n using Nat.strong_induction_on with
  | _ n ih =>
    intro schema hn
    have hpos := jsize_pos schema
    cases n with
    | zero => omega
    | succ n' =>
      simp only [getTypeHintF]
      by_cases h1 : (schema.getKey "$ref").isSome
      · simp [h1, withOpt]
      · simp only [h1, Bool.false_eq_true, if_false]
        by_cases h2 : (schema.getKey "allOf").isSome
        · simp only [h2, if_true]
          cases hAll : allOfList schema with
          | nil => simp [withOpt]
          | cons item rest =>
            have hlt := allOfList_jsize_lt schema item
              (by rw [hAll]; exact List.mem_cons_self _ _)
            exact ih n' (by omega) item (by omega)
        · simp only [h2, Bool.false_eq_true, if_false]
          by_cases h3 : (schema.getKey "oneOf").isSome
              || (schema.getKey "anyOf").isSome
          · simp [h3, withOpt]
          · simp only [h3, Bool.false_eq_true, if_false]
            cases hTy : schema.getKey "type" with
            | none => simp [withOpt]
            | some t =>
              simp only []
              by_cases hs : isStr t "string" = true
              · simp [hs, withOpt]
              · simp only [hs, Bool.false_eq_true, if_false]
                by_cases hi : isStr t "integer" = true
                · simp [hi, withOpt]
                · simp only [hi, Bool.false_eq_true, if_false]
                  by_cases hnum : isStr t "number" = true
                  · simp [hnum, withOpt]
                  · simp only [hnum, Bool.false_eq_true, if_false]
                    by_cases hb : isStr t "boolean" = true
                    · simp [hb, withOpt]
                    · simp only [hb, Bool.false_eq_true, if_false]
                      by_cases ha : isStr t "array" = true
                      · simp only [ha, if_true]
                        cases hIt : schema.getKey "items" with
                        | none => simp [withOpt]
                        | some it => simp [withOpt]
                      · simp only [ha, Bool.false_eq_true, if_false]
                        by_cases ho : isStr t "object" = true
                        · simp only [ho, if_true]
                          cases hAp : schema.getKey "additionalProperties" with
                          | none => simp [withOpt]
                          | some ap => simp [withOpt]
                        · simp [ho, withOpt]

/-- The outermost-marker equation: resolving with `required=false` appends
exactly one " | None" to the `required=true` resolution. -/
theorem getTypeHint_opt (schema : JValue) :
    getTypeHint schema false = getTypeHint schema true ++ " | None" :=
  getTypeHintF_opt (jsize schema) schema le_rfl

theorem getTypeHint_array (schema it : JValue) (required : Bool)
    (h1 : schema.getKey "$ref" = none) (h2 : schema.getKey "allOf" = none)
    (h3 : schema.getKey "oneOf" = none) (h4 : schema.getKey "anyOf" = none)
    (h5 : schema.getKey "type" = some (.str "array"))
    (h6 : schema.getKey "items" = some it) :
    getTypeHint schema required =
      withOpt required ("list[" ++ getTypeHint it true ++ "]") := by
  have hpos := jsize_pos schema
  have hlt := getKey_jsize_lt schema "items" it h6
  unfold getTypeHint
  cases hj : jsize schema with
  | zero => omega
  | succ n =>
    simp only [getTypeHintF, h1, h2, h3, h4, h5, h6, Option.isSome_none,
      Option.isSome_some, Bool.false_eq_true, if_false, Bool.or_self, isStr,
      String.reduceEq, if_true]
    rw [getTypeHintF_irrel n (jsize it) it true (by omega) le_rfl]
    simp

theorem getTypeHint_object (schema ap : JValue) (required : Bool)
    (h1 : schema.getKey "$ref" = none) (h2 : schema.getKey "allOf" = none)
    (h3 : schema.getKey "oneOf" = none) (h4 : schema.getKey "anyOf" = none)
    (h5 : schema.getKey "type" = some (.str "object"))
    (h6 : schema.getKey "additionalProperties" = some ap) :
    getTypeHint schema required =
      withOpt required ("dict[str, " ++ getTypeHint ap true ++ "]") := by
  have hpos := jsize_pos schema
  have hlt := getKey_jsize_lt schema "additionalProperties" ap h6
  unfold getTypeHint
  cases hj : jsize schema with
  | zero => omega
  | succ n =>
    simp only [getTypeHintF, h1, h2, h3, h4, h5, h6, Option.isSome_none,
      Option.isSome_some, Bool.false_eq_true, if_false, Bool.or_self, isStr,
      String.reduceEq, if_true]
    rw [getTypeHintF_irrel n (jsize ap) ap true (by omega) le_rfl]
    simp

theorem getTypeHint_disj (schema : JValue) (required : Bool)
    (h1 : schema.getKey "$ref" = none) (h2 : schema.getKey "allOf" = none)
    (h3 : ((schema.getKey "oneOf").isSome || (schema.getKey "anyOf").isSome)
      = true) :
    getTypeHint schema required =
      withOpt required (String.intercalate " | "
        ((disjItems schema).map (fun x => getTypeHint x true))) := by
  have hpos := jsize_pos schema
  unfold getTypeHint
  cases hj : jsize schema with
  | zero => omega
  | succ n =>
    simp only [getTypeHintF, h1, h2, h3, Option.isSome_none,
      Bool.false_eq_true, if_false, if_true]
    have : ∀ x ∈ disjItems schema,
        getTypeHintF n x true = getTypeHint x true := by
      intro x hx
      have hlt := disjItems_jsize_lt schema x hx
      exact getTypeHintF_irrel n (jsize x) x true (by omega) le_rfl
    rw [List.map_congr_left this]
    rfl

/-! ## Schema Parser lemmas -/

theorem mergeAllOf_snd : ∀ (items : List JValue) (req : List String),
    (mergeAllOf items req).2 = req ++ (items.map requiredNames).flatten := by
  intro items
  induction items with
  | nil => intro req; simp [mergeAllOf]
  | cons x xs ih =>
    intro req
    simp only [mergeAllOf]
    rw [ih]
    simp

theorem mergeAllOf_fst : ∀ (items : List JValue) (req : List String),
    (mergeAllOf items req).1 =
      ((items.zip (reqPrefixes req items)).map (fun q =>
        if (q.1.getKey "properties").isSome then
          (propsOf q.1).map (fun p =>
            parse_property p.1 p.2 (decide (p.1 ∈ q.2)))
        else [])).flatten := by
  intro items
  induction items with
  | nil => intro req; simp [mergeAllOf, reqPrefixes]
  | cons x xs ih =>
    intro req
    simp only [mergeAllOf, reqPrefixes, List.scanl]
    rw [ih (req ++ requiredNames x)]
    simp [reqPrefixes]

theorem allOfList_nil_of_not_isSome (schema : JValue)
    (h : ¬ (schema.getKey "allOf").isSome = true) : allOfList schema = [] := by
  unfold allOfList
  cases hk : schema.getKey "allOf" with
  | none => rfl
  | some v => simp [hk] at h

/-- **C1 (amended).**  For every schema, the parsed property list is the
`allOf` members' properties in declaration order followed by the schema's
own properties.  The schema's own properties get `required` = membership in
the full union of the schema's own `required` list and all members'
`required` lists; but a property declared in `allOf` member `i` gets
`required` = membership in the union of the schema's own `required` list
and the `required` lists of members STRICTLY BEFORE `i` only (the source
adds a member's `required` entries to the set only after parsing that
member's properties). -/
theorem C1_amended (schema : JValue) :
    parseModelProps schema =
      (((allOfList schema).zip
          (reqPrefixes (requiredNames schema) (allOfList schema))).map (fun q =>
        if (q.1.getKey "properties").isSome then
          (propsOf q.1).map (fun p =>
            parse_property p.1 p.2 (decide (p.1 ∈ q.2)))
        else [])).flatten ++
      (propsOf schema).map (fun p =>
        parse_property p.1 p.2 (decide (p.1 ∈ unionRequired schema))) := by
  unfold parseModelProps
  by_cases h : (schema.getKey "allOf").isSome
  · simp only [h, if_true]
    rw [mergeAllOf_fst, mergeAllOf_snd]
    rfl
  · simp only [h, Bool.false_eq_true, if_false]
    have hnil := allOfList_nil_of_not_isSome schema h
    rw [hnil]
    simp [reqPrefixes, unionRequired, hnil]

/-- **C1 (counterexample).**  In `c1schema` the property "a" is declared in
the first `allOf` member and listed in that member's `required` list, so it
belongs to the union of all `required` lists; yet the parser marks it NOT
required (the member's `required` entries are only added to the set after
that member's properties were parsed), refuting the claimed
required-flag/union correspondence. -/
theorem C1_counterexample :
    (parseModelProps c1schema).map (fun p => (p.name, p.required))
        = [("a", false)]
      ∧ "a" ∈ unionRequired c1schema := by
  constructor
  · rfl
  · decide

/-! ## Naming claims -/

/-- **C5 (amended).**  `sanitize_name` substitutes the fallback "default"
whenever the filtered-and-stripped input is empty, and a parsed property's
cased identifier never equals a reserved word (collisions receive a
trailing underscore); however the result can still be empty when the
stripped input is nonempty but snake-cases to nothing (see the
counterexample), so "never empty" does not hold. -/
theorem C5_amended :
    (∀ s : String, sanitizeStripped s = [] → sanitize_name s = "default") ∧
    (∀ (name : String) (schema : JValue) (required : Bool),
        (parse_property name schema required).python_name ∉ reservedWords) := by
  constructor
  · intro s h
    unfold sanitize_name
    simp only [h, List.isEmpty_nil, if_true]
    decide
  · intro name schema required
    simp only [parse_property]
    by_cases h : snake_case name ∈ reservedWords
    · simp only [if_pos h]
      simp only [reservedWords, List.mem_cons, List.not_mem_nil, or_false] at h
      rcases h with (h|h|h|h|h|h) <;> rw [h] <;> decide
    · simp only [if_neg h]
      exact h

/-- **C5 (counterexample).**  On the input "_" the stripped intermediate is
nonempty (an underscore is a word character), so the fallback is not
substituted, yet `snake_case` strips the lone underscore away: the
sanitized identifier and the derived property identifier are both empty,
refuting "never empty". -/
theorem C5_counterexample :
    sanitize_name "_" = ""
      ∧ (parse_property "_" (.obj []) true).python_name = "" := by
  constructor <;> decide

/-- Witness for C5: the fallback on the empty input, and the reserved word
"type" receiving its trailing marker. -/
theorem C5_witness :
    (sanitizeStripped "" = [] ∧ sanitize_name "" = "default")
      ∧ (parse_property "type" (.obj []) true).python_name ∉ reservedWords :=
  ⟨⟨rfl, C5_amended.1 "" rfl⟩, C5_amended.2 "type" (.obj []) true⟩

/-! ## Type Resolver claims -/

/-- **C6 (amended).**  For every schema node that contains an `allOf` key
with a nonempty member list and does NOT contain a `$ref` key, the resolver
returns the first member's TypeDescriptor, resolved with the same
`required` flag (a `$ref` key would shadow the `allOf`, see the
counterexample). -/
theorem C6_amended (schema item : JValue) (rest : List JValue)
    (required : Bool)
    (href : schema.getKey "$ref" = none)
    (hAll : allOfList schema = item :: rest) :
    getTypeHint schema required = getTypeHint item required :=
  getTypeHint_allOf_head schema item rest required href hAll

/-- **C6 (counterexample).**  `c6node` contains an `allOf` key whose first
member resolves to "int", yet the resolver returns "Foo": the `$ref` branch
is checked first and shadows the composition, refuting the claim for
schema nodes that carry both keys. -/
theorem C6_counterexample :
    allOfList c6node = [intSchema]
      ∧ getTypeHint c6node true = "Foo"
      ∧ getTypeHint intSchema true = "int"
      ∧ getTypeHint c6node true ≠ getTypeHint intSchema true := by
  refine ⟨rfl, rfl, rfl, ?_⟩
  decide

/-- Witness for C6: a pure one-member `allOf` node resolves to its member's
type, with the `required=false` flag passed through. -/
theorem C6_witness :
    allOfList c6wNode = [intSchema]
      ∧ getTypeHint c6wNode false = getTypeHint intSchema false :=
  ⟨rfl, C6_amended c6wNode intSchema [] false rfl rfl⟩

/-- **C7.**  Reference nodes resolve to exactly the last path segment of
the reference string; the optionality marker " | None" is appended to the
outermost descriptor exactly when `required=false`; and container element
types are always resolved with `required=true` (array items, map values,
and disjunction members), so the marker is never propagated inside. -/
theorem C7_ref_optional :
    (∀ (schema : JValue) (required : Bool),
        (schema.getKey "$ref").isSome = true →
        getTypeHint schema required =
          withOpt required (lastSegment (jstrD (schema.getKey "$ref")))) ∧
    (∀ schema : JValue,
        getTypeHint schema false = getTypeHint schema true ++ " | None") ∧
    (∀ (schema it : JValue) (required : Bool),
        schema.getKey "$ref" = none → schema.getKey "allOf" = none →
        schema.getKey "oneOf" = none → schema.getKey "anyOf" = none →
        schema.getKey "type" = some (.str "array") →
        schema.getKey "items" = some it →
        getTypeHint schema required =
          withOpt required ("list[" ++ getTypeHint it true ++ "]")) ∧
    (∀ (schema ap : JValue) (required : Bool),
        schema.getKey "$ref" = none → schema.getKey "allOf" = none →
        schema.getKey "oneOf" = none → schema.getKey "anyOf" = none →
        schema.getKey "type" = some (.str "object") →
        schema.getKey "additionalProperties" = some ap →
        getTypeHint schema required =
          withOpt required ("dict[str, " ++ getTypeHint ap true ++ "]")) ∧
    (∀ (schema : JValue) (required : Bool),
        schema.getKey "$ref" = none → schema.getKey "allOf" = none →
        ((schema.getKey "oneOf").isSome || (schema.getKey "anyOf").isSome)
          = true →
        getTypeHint schema required =
          withOpt required (String.intercalate " | "
            ((disjItems schema).map (fun x => getTypeHint x true)))) :=
  ⟨getTypeHint_ref, getTypeHint_opt, getTypeHint_array, getTypeHint_object,
    getTypeHint_disj⟩

/-- Witness for C7: an optional reference, an optional array of references
(marker outermost only), and an optional disjunction (members required). -/
theorem C7_witness :
    getTypeHint c7ref false = "Foo | None"
      ∧ getTypeHint c7arr false = "list[Foo] | None"
      ∧ getTypeHint c7disj false = "str | int | None" :=
  ⟨(C7_ref_optional.1 c7ref false rfl).trans rfl,
   (C7_ref_optional.2.2.1 c7arr c7ref false rfl rfl rfl rfl rfl rfl).trans rfl,
   (C7_ref_optional.2.2.2.2 c7disj false rfl rfl rfl).trans rfl⟩

/-! ## Endpoint Parser claims -/

theorem respTypeGo_cons (responses : JValue) (status : String)
    (rest : List String) :
    respTypeGo responses (status :: rest) =
      (match jsonSchemaAt responses status with
       | some s => getTypeHint s true
       | none => respTypeGo responses rest) := by
  cases h : responses.getKey status with
  | none => simp [respTypeGo, jsonSchemaAt, h]
  | some resp =>
    cases hc : ((resp.getKey "content").getD (.obj []))
        |>.getKey "application/json" with
    | none => simp [respTypeGo, jsonSchemaAt, h, hc]
    | some cj => simp [respTypeGo, jsonSchemaAt, h, hc]

/-- **C2.**  The response type is derived from the first status key among
"200", "201", "default" (in that fixed priority order) that is present and
carries an "application/json" content entry, its schema resolved with
`required=true`; if none matches, the response type is "Any".  The
`<|>`-chain makes the priority explicit: in particular a "200" JSON
response always beats a "201" one. -/
theorem C2_response_priority (operation : JValue) :
    parse_response_type operation =
      (match
          jsonSchemaAt ((operation.getKey "responses").getD (.obj [])) "200"
          <|> jsonSchemaAt ((operation.getKey "responses").getD (.obj [])) "201"
          <|> jsonSchemaAt ((operation.getKey "responses").getD (.obj []))
                "default" with
       | some s => getTypeHint s true
       | none => "Any") := by
  unfold parse_response_type statusPriority
  generalize (operation.getKey "responses").getD (.obj []) = rs
  rw [respTypeGo_cons, respTypeGo_cons, respTypeGo_cons]
  cases j1 : jsonSchemaAt rs "200" <;>
    cases j2 : jsonSchemaAt rs "201" <;>
      cases j3 : jsonSchemaAt rs "default" <;>
        simp [respTypeGo]

/-- Witness-style instance for C2 on a concrete operation: both "200" and
"201" declare JSON content ("201" first in the document), and the "200"
schema wins. -/
theorem C2_response_priority_witness :
    jsonSchemaAt ((c2op.getKey "responses").getD (.obj [])) "200"
        = some (.obj [("$ref", .str "#/components/schemas/A")])
      ∧ jsonSchemaAt ((c2op.getKey "responses").getD (.obj [])) "201"
        = some (.obj [("$ref", .str "#/components/schemas/B")])
      ∧ parse_response_type c2op = "A" :=
  ⟨rfl, rfl, (C2_response_priority c2op).trans rfl⟩

/-- **C3.**  After reference resolution, a parameter located "in path" is
required no matter what its declared `required` flag says; any other
parameter uses its declared flag (through Python truthiness, which on the
boolean values occurring in practice is the flag itself), defaulting to
false when the flag is absent. -/
theorem C3_path_param_required (spec param p : JValue) (pi : PropertyInfo)
    (hres : resolveParam spec param = some p)
    (hp : parse_param spec param = some pi) :
    (isStrVal (p.getKey "in") "path" = true → pi.required = true) ∧
    (isStrVal (p.getKey "in") "path" = false →
      pi.required = jTruthy ((p.getKey "required").getD (.bool false))) ∧
    (isStrVal (p.getKey "in") "path" = false → p.getKey "required" = none →
      pi.required = false) := by
  unfold parse_param at hp
  rw [hres] at hp
  simp only [Option.bind_eq_bind, Option.some_bind] at hp
  cases hnm : p.getKey "name" with
  | none => simp [hnm] at hp
  | some v =>
    cases v
    case str s =>
      simp only [hnm, Option.some_bind] at hp
      rw [← Option.some.inj hp]
      refine ⟨fun h => ?_, fun h => ?_, fun h hreq => ?_⟩
      · simp [h]
      · simp [h]
      · simp [h, hreq, jTruthy]
    all_goals simp [hnm] at hp

/-- Witness for C3: a path parameter declared `required: false` comes out
required. -/
theorem C3_witness :
    isStrVal (c3param.getKey "in") "path" = true
      ∧ c3param.getKey "required" = some (.bool false)
      ∧ parse_param (JValue.obj []) c3param = some c3pi
      ∧ c3pi.required = true := by
  refine ⟨rfl, rfl, rfl, ?_⟩
  exact (C3_path_param_required (JValue.obj []) c3param c3param c3pi
    rfl rfl).1 rfl

/-- **C8.**  A parameter declared as a single-level `$ref` whose path
resolves in the document to a parameter object (itself not a reference)
parses to exactly the PropertyInfo the resolved object would produce if
declared inline at the same position. -/
theorem C8_param_ref_inline (spec param pobj : JValue) (r : String)
    (href : param.getKey "$ref" = some (.str r))
    (hwalk : walkPath spec (((splitOnChar '/' r.data).map String.mk).drop 1)
      = some pobj)
    (hnoref : pobj.getKey "$ref" = none) :
    parse_param spec param = parse_param spec pobj := by
  unfold parse_param resolveParam
  simp only [href, hwalk, hnoref]

/-- Witness for C8: a `#/components/parameters/...` reference resolving to
a complete inline parameter object. -/
theorem C8_witness :
    c8refParam.getKey "$ref"
        = some (.str "#/components/parameters/SessionParam")
      ∧ walkPath c8spec ["components", "parameters", "SessionParam"]
        = some c8inline
      ∧ parse_param c8spec c8refParam = parse_param c8spec c8inline :=
  ⟨rfl, rfl, C8_param_ref_inline c8spec c8refParam c8inline
    "#/components/parameters/SessionParam" rfl rfl rfl⟩

/-! ## Entity Parser claims -/

/-- **C9.**  Every produced EntityInfo takes its class name from the
extension payload's `class_name` override when that is given (as a string),
and otherwise from the Pascal-cased schema name; it records the schema
name; and its property list is built from the schema's DIRECT `properties`
only — via the same `_parse_property` and own-`required`-membership logic
as Models, with no `allOf` merge. -/
theorem C9_entity (schema_name : String) (schema : JValue) (ent : EntityInfo)
    (h : parse_entity schema_name schema = some ent) :
    (∀ s, ((schema.getKey "x-waha-entity").getD .null).getKey "class_name"
        = some (.str s) → ent.name = s) ∧
    (((schema.getKey "x-waha-entity").getD .null).getKey "class_name" = none →
      ent.name = pascal_case schema_name) ∧
    ent.schema_name = schema_name ∧
    ent.properties = (propsOf schema).map (fun p =>
      parse_property p.1 p.2 (decide (p.1 ∈ requiredNames schema))) := by
  unfold parse_entity at h
  by_cases ht : jTruthy ((schema.getKey "x-waha-entity").getD .null) = true
  · simp only [ht, if_true] at h
    rw [← Option.some.inj h]
    refine ⟨fun s hs => ?_, fun hn => ?_, rfl, rfl⟩
    · simp [hs]
    · simp [hn]
  · simp [ht] at h

/-- Witness for C9: an entity with an explicit override, whose property
list picks up the two direct properties (and not the `allOf` member's). -/
theorem C9_witness :
    parse_entity "GroupInfo" c9schema = some c9ent
      ∧ c9ent.name = "Group"
      ∧ c9ent.schema_name = "GroupInfo"
      ∧ c9ent.properties = (propsOf c9schema).map (fun p =>
          parse_property p.1 p.2 (decide (p.1 ∈ requiredNames c9schema)))
      ∧ (c9ent.properties.map (fun p => (p.name, p.required)))
          = [("id", true), ("name", false)] := by
  have h := C9_entity "GroupInfo" c9schema c9ent rfl
  exact ⟨rfl, h.1 "Group" rfl, h.2.2.1, h.2.2.2, by rfl⟩

/-- **C10.**  A schema whose `x-waha-entity` value is falsy (in particular
an empty object, or an absent key) produces no EntityInfo. -/
theorem C10_falsy_entity (schema_name : String) (schema : JValue)
    (h : jTruthy ((schema.getKey "x-waha-entity").getD .null) = false) :
    parse_entity schema_name schema = none := by
  unfold parse_entity
  simp [h]

/-- Witness for C10: the extension key is present but maps to an empty
object, and no entity is produced. -/
theorem C10_witness :
    c10schema.getKey "x-waha-entity" = some (.obj [])
      ∧ parse_entity "S" c10schema = none :=
  ⟨rfl, C10_falsy_entity "S" c10schema rfl⟩

/-! ## Endpoint enumeration (C4) -/

theorem foldlM_option_cons {α β : Type} (f : β → α → Option β) (x : α)
    (l : List α) (b r : β) (h : (x :: l).foldlM f b = some r) :
    ∃ b1, f b x = some b1 ∧ l.foldlM f b1 = some r := by
  rw [List.foldlM_cons] at h
  cases hfb : f b x with
  | none => rw [hfb] at h; simp at h
  | some b1 =>
    rw [hfb] at h
    exact ⟨b1, rfl, h⟩

theorem foldlM_option_append {α β : Type} (f : β → α → Option β)
    (l1 l2 : List α) : ∀ (b r : β), (l1 ++ l2).foldlM f b = some r →
    ∃ m, l1.foldlM f b = some m ∧ l2.foldlM f m = some r := by
  induction l1 with
  | nil => intro b r h; exact ⟨b, rfl, h⟩
  | cons x l1 ih =>
    intro b r h
    rw [List.cons_append] at h
    obtain ⟨b1, hb1, hrest⟩ := foldlM_option_cons f x (l1 ++ l2) b r h
    obtain ⟨m, hm, hr⟩ := ih b1 r hrest
    refine ⟨m, ?_, hr⟩
    rw [List.foldlM_cons, hb1]
    exact hm

theorem mem_insertEndpoint_self (groups : List (String × List EndpointInfo))
    (tag : String) (e : EndpointInfo) :
    e ∈ allEndpoints (insertEndpoint groups tag e) := by
  induction groups with
  | nil => simp [insertEndpoint, allEndpoints]
  | cons g rest ih =>
    obtain ⟨t, es⟩ := g
    by_cases h : t = tag
    · simp [insertEndpoint, h, allEndpoints]
    · simp only [insertEndpoint, if_neg h]
      simp only [allEndpoints, List.map_cons, List.flatten_cons,
        List.mem_append]
      right
      exact ih

theorem mem_insertEndpoint_mono (groups : List (String × List EndpointInfo))
    (tag : String) (e e' : EndpointInfo) (h : e' ∈ allEndpoints groups) :
    e' ∈ allEndpoints (insertEndpoint groups tag e) := by
  induction groups with
  | nil => simp [allEndpoints] at h
  | cons g rest ih =>
    obtain ⟨t, es⟩ := g
    simp only [allEndpoints, List.map_cons, List.flatten_cons,
      List.mem_append] at h
    by_cases ht : t = tag
    · simp only [insertEndpoint, if_pos ht]
      simp only [allEndpoints, List.map_cons, List.flatten_cons,
        List.mem_append]
      tauto
    · simp only [insertEndpoint, if_neg ht]
      simp only [allEndpoints, List.map_cons, List.flatten_cons,
        List.mem_append]
      rcases h with h | h
      · left; exact h
      · right; exact ih h

theorem stepEndpoint_mono (spec : JValue) (path : String) (path_item : JValue)
    (groups groups' : List (String × List EndpointInfo)) (method : String)
    (h : stepEndpoint spec path path_item groups method = some groups')
    (e' : EndpointInfo) (hm : e' ∈ allEndpoints groups) :
    e' ∈ allEndpoints groups' := by
  unfold stepEndpoint at h
  split at h
  next => rw [← Option.some.inj h]; exact hm
  next operation heq =>
    cases htag : tagOf operation with
    | none => rw [htag] at h; simp at h
    | some tag =>
      rw [htag] at h
      simp only [Option.bind_eq_bind, Option.some_bind] at h
      cases hend : parse_endpoint spec path method operation tag with
      | none => rw [hend] at h; simp at h
      | some e =>
        rw [hend] at h
        simp only [Option.bind_eq_bind, Option.some_bind] at h
        rw [← Option.some.inj h]
        exact mem_insertEndpoint_mono groups tag e e' hm

theorem foldlM_methods_mono (spec : JValue) (path : String)
    (path_item : JValue) :
    ∀ (l : List String) (groups groups' : List (String × List EndpointInfo)),
      l.foldlM (stepEndpoint spec path path_item) groups = some groups' →
      ∀ e', e' ∈ allEndpoints groups → e' ∈ allEndpoints groups' := by
  intro l
  induction l with
  | nil => intro groups groups' h e' hm; rw [← Option.some.inj h]; exact hm
  | cons m rest ih =>
    intro groups groups' h e' hm
    obtain ⟨g1, hg1, hrest⟩ := foldlM_option_cons _ m rest groups groups' h
    exact ih g1 groups' hrest e'
      (stepEndpoint_mono spec path path_item groups g1 m hg1 e' hm)

theorem foldlM_paths_mono (spec : JValue) :
    ∀ (ps : List (String × JValue))
      (groups groups' : List (String × List EndpointInfo)),
      ps.foldlM (fun groups p =>
        httpMethods.foldlM (stepEndpoint spec p.1 p.2) groups) groups
        = some groups' →
      ∀ e', e' ∈ allEndpoints groups → e' ∈ allEndpoints groups' := by
  intro ps
  induction ps with
  | nil => intro groups groups' h e' hm; rw [← Option.some.inj h]; exact hm
  | cons p rest ih =>
    intro groups groups' h e' hm
    obtain ⟨g1, hg1, hrest⟩ := foldlM_option_cons _ p rest groups groups' h
    exact ih g1 groups' hrest e'
      (foldlM_methods_mono spec p.1 p.2 httpMethods groups g1 hg1 e' hm)

theorem parse_endpoint_tag (spec : JValue) (path method : String)
    (operation : JValue) (tag : String) (e : EndpointInfo)
    (h : parse_endpoint spec path method operation tag = some e) :
    e.tag = tag := by
  unfold parse_endpoint at h
  split at h
  case h_3 => simp at h
  all_goals
    simp only [Option.bind_eq_bind, Option.some_bind] at h
  all_goals
    cases hP : (paramsOf operation).mapM (parse_param spec) with
    | none => rw [hP] at h; simp at h
    | some params =>
      rw [hP] at h
      simp only [Option.bind_eq_bind, Option.some_bind] at h
      rw [← Option.some.inj h]

theorem tagOf_of_none (operation : JValue) (tag : String)
    (hnone : operation.getKey "tags" = none) (h : tagOf operation = some tag) :
    tag = "default" := by
  unfold tagOf at h
  rw [hnone] at h
  simp only [Option.some_bind, List.head?_cons] at h
  rw [← Option.some.inj h]
  decide

theorem tagOf_of_first (operation : JValue) (tag t0 : String) (ts : List JValue)
    (htags : operation.getKey "tags" = some (.arr (.str t0 :: ts)))
    (h : tagOf operation = some tag) : tag = sanitize_name t0 := by
  unfold tagOf at h
  rw [htags] at h
  simp only [Option.some_bind, List.head?_cons] at h
  exact (Option.some.inj h).symm

/-- **C4 (amended).**  For every path and every HTTP verb among "get",
"post", "put", "patch", "delete" that is present under that path, a
successful run of the Endpoint Parser contains the corresponding
EndpointInfo, whose tag is the sanitized first declared tag, or the fixed
fallback tag "default" when the operation declares no tags.  (Verbs outside
that fixed list, e.g. "head", are skipped entirely — see the
counterexample.) -/
theorem C4_amended (spec : JValue) (path : String)
    (path_item operation : JValue) (method : String)
    (groups : List (String × List EndpointInfo))
    (hmem : (path, path_item) ∈ pathsOf spec)
    (hmethod : method ∈ httpMethods)
    (hop : path_item.getKey method = some operation)
    (hparse : parse_endpoints spec = some groups) :
    ∃ tag e, tagOf operation = some tag ∧
      parse_endpoint spec path method operation tag = some e ∧
      e ∈ allEndpoints groups ∧
      e.tag = tag ∧
      (operation.getKey "tags" = none → tag = "default") ∧
      (∀ (t0 : String) (ts : List JValue),
        operation.getKey "tags" = some (.arr (.str t0 :: ts)) →
        tag = sanitize_name t0) := by
  unfold parse_endpoints at hparse
  obtain ⟨l1, l2, hps⟩ := List.append_of_mem hmem
  rw [hps] at hparse
  obtain ⟨g1, hg1, hrest⟩ := foldlM_option_append _ l1 _ [] groups hparse
  obtain ⟨g2, hg2, hrest2⟩ := foldlM_option_cons _ _ l2 g1 groups hrest
  obtain ⟨m1, m2, hms⟩ := List.append_of_mem hmethod
  rw [hms] at hg2
  obtain ⟨gm1, hgm1, hmrest⟩ := foldlM_option_append _ m1 _ g1 g2 hg2
  obtain ⟨gm2, hstep, hmrest2⟩ := foldlM_option_cons _ _ m2 gm1 g2 hmrest
  unfold stepEndpoint at hstep
  rw [hop] at hstep
  simp only [Option.bind_eq_bind] at hstep
  cases htag : tagOf operation with
  | none => rw [htag] at hstep; simp at hstep
  | some tag =>
    rw [htag] at hstep
    simp only [Option.some_bind] at hstep
    cases hend : parse_endpoint spec path method operation tag with
    | none => rw [hend] at hstep; simp at hstep
    | some e =>
      rw [hend] at hstep
      simp only [Option.some_bind] at hstep
      have hmem2 : e ∈ allEndpoints gm2 := by
        rw [← Option.some.inj hstep]
        exact mem_insertEndpoint_self gm1 tag e
      have hmemg2 : e ∈ allEndpoints g2 :=
        foldlM_methods_mono spec path path_item m2 gm2 g2 hmrest2 e hmem2
      have hmemG : e ∈ allEndpoints groups :=
        foldlM_paths_mono spec l2 g2 groups hrest2 e hmemg2
      exact ⟨tag, e, rfl, hend, hmemG,
        parse_endpoint_tag spec path method operation tag e hend,
        fun hn => tagOf_of_none operation tag hn htag,
        fun t0 ts hts => tagOf_of_first operation tag t0 ts hts htag⟩

/-- **C4 (counterexample).**  The document `c4spec` declares an operation
under the HTTP verb "head" at path "/x", yet the Endpoint Parser produces
no EndpointInfo at all: only "get", "post", "put", "patch" and "delete" are
scanned, refuting the claim for the other HTTP verbs. -/
theorem C4_counterexample :
    pathsOf c4spec = [("/x", c4item)]
      ∧ (c4item.getKey "head").isSome = true
      ∧ "head" ∉ httpMethods
      ∧ parse_endpoints c4spec = some [] := by
  refine ⟨rfl, rfl, ?_, rfl⟩
  decide

/-- Witness for C4: a "get" operation with a declared tag is parsed and
lands in the produced groups. -/
theorem C4_witness :
    (c4wItem.getKey "get").isSome = true
      ∧ parse_endpoints c4wSpec = some c4wGroups
      ∧ ∃ tag e, tagOf c4wOp = some tag ∧
          parse_endpoint c4wSpec "/a" "get" c4wOp tag = some e ∧
          e ∈ allEndpoints c4wGroups ∧
          e.tag = tag ∧
          (c4wOp.getKey "tags" = none → tag = "default") ∧
          (∀ (t0 : String) (ts : List JValue),
            c4wOp.getKey "tags" = some (.arr (.str t0 :: ts)) →
            tag = sanitize_name t0) := by
  refine ⟨rfl, rfl, ?_⟩
  exact C4_amended c4wSpec "/a" c4wItem c4wOp "get" c4wGroups
    (show ("/a", c4wItem) ∈ [("/a", c4wItem)] from List.mem_singleton.mpr rfl)
    (show "get" ∈ ["get", "post", "put", "patch", "delete"] from
      List.mem_cons_self _ _)
    rfl rfl

end Waha
